import Mathlib

/-!
Verification of the MathEncode codec (`src/MathEncode.py`).

The program maps a message to a large integer by concatenating fixed 2-digit
character codes, tags it with its digit length, reduces it by iterated root
extraction, and reconstructs the message from the reduced value.

Embedding conventions, from the source:
* Python `str` / 2-digit code strings are Lean `String` (backed by `List Char`).
* Python arbitrary-size `int` is `Nat` (all packed values are nonnegative);
  the `Decimal` floor of `f_full ** r` in `decode_secret` is `Int` (the result
  of `to_integral_value`).
* `decimal.Decimal` values produced by the root extraction
  `M ** (Decimal(1)/Decimal(r))` at `getcontext().prec = 200` are modelled as
  exact real numbers `(M : ℝ) ^ (1/r)`: for the message sizes the claims cover
  (packed value well below 10^199), the 200-significant-digit working
  precision reproduces the exact comparisons against the threshold 10 and the
  exact floored reconstruction `floor(f_full ** r) ∈ {M}` that the exact-real
  model yields.  All other arithmetic in the pipeline (`int`, string
  operations, `* 10**L + L`, `// 10**L`, `r*100+L`, `//100`, `%100`) is exact
  integer/string computation and is embedded exactly.
* `Decimal.__floordiv__` truncates toward zero, hence `Int.tdiv` in
  `decode_secret`.
-/

/-- Two-digit zero-padded rendering; models the f-string `f"{n:02d}"` used to
build the character table (all table codes are below 100). -/
def format02 (n : Nat) : String := if n < 10 then "0" ++ toString n else toString n

/-- The character table `zeichen_tabelle` from `src/MathEncode.py` lines 16-28:
lowercase a-z codes 01-26, uppercase A-Z codes 27-52, question mark 53,
space 54, digits 0-9 codes 55-64, punctuation codes 65-94.  The Python dict
has pairwise distinct keys, so an association list is a faithful model.
Characters that are not plain Lean literals are written with `Char.ofNat`
(97 = a, 65 = A, 63 = question mark, 32 = space, 48 = zero digit,
123/125 = braces, 34 = double quote, 39 = apostrophe, 92 = backslash,
96 = backquote). -/
def zeichen_tabelle : List (Char × String) :=
  ((List.range 26).map (fun i => (Char.ofNat (97 + i), format02 (i + 1)))) ++
  ((List.range 26).map (fun i => (Char.ofNat (65 + i), format02 (i + 27)))) ++
  [((Char.ofNat 63), "53"), ((Char.ofNat 32), "54")] ++
  ((List.range 10).map (fun i => (Char.ofNat (48 + i), format02 (55 + i)))) ++
  [('.', "65"), (',', "66"), ('!', "67"), (';', "68"), (':', "69"),
   ('-', "70"), ('_', "71"), ('(', "72"), (')', "73"), ('[', "74"),
   (']', "75"), (Char.ofNat 123, "76"), (Char.ofNat 125, "77"),
   (Char.ofNat 34, "78"), (Char.ofNat 39, "79"),
   ('/', "80"), (Char.ofNat 92, "81"), ('@', "82"), ('#', "83"), ('$', "84"),
   ('%', "85"), ('&', "86"), ('*', "87"), ('+', "88"), ('=', "89"),
   ('<', "90"), ('>', "91"), ('^', "92"), ('~', "93"), (Char.ofNat 96, "94")]

/-- Decimal value of a digit list, most significant digit first; the
evaluation core of Python `int()` on a string of decimal digits. -/
def listToNat (l : List Char) : Nat := l.foldl (fun acc c => 10 * acc + (c.toNat - 48)) 0

/-- Python `int(s)` for a string of decimal digits (every use of `int` on a
string in the source receives a nonempty string of digits, except that
`int("")` never occurs because `build_numeric_code` guards the empty case). -/
def strToNat (s : String) : Nat := listToNat s.toList

/-- `reverse_tabelle = {int(v): k for k, v in zeichen_tabelle.items()}`
(line 29).  The codes are pairwise distinct, so the comprehension never
overwrites an entry and an association list is a faithful model. -/
def reverse_tabelle : List (Nat × Char) := zeichen_tabelle.map (fun p => (strToNat p.2, p.1))

/-- The sentinel character, Python `'?'` (the default of
`reverse_tabelle.get(code, '?')`). -/
def sentinel : Char := Char.ofNat 63

/-- `zeichen_tabelle.get(ch, '00')`: the 2-digit code of a character, with
default `"00"` for unmapped characters (line 34). -/
def codeOf (ch : Char) : String := (List.lookup ch zeichen_tabelle).getD "00"

/-- `build_numeric_code` (lines 32-35): concatenate the 2-digit codes of all
characters and parse the digit string as an integer; the empty message packs
to 0. -/
def build_numeric_code (message : String) : Nat :=
  let code_str := String.join (message.toList.map codeOf)
  if code_str = "" then 0 else strToNat code_str

/-- Decimal digit list of a natural number, most significant first
(fuel-based so that it is structurally recursive; `natDigits` always passes
sufficient fuel). -/
def natDigitsCore : Nat → Nat → List Char
  | 0, _ => []
  | fuel + 1, n =>
    if n < 10 then [Char.ofNat (48 + n)]
    else natDigitsCore fuel (n / 10) ++ [Char.ofNat (48 + n % 10)]

/-- Decimal digit list of a natural number; `natDigits 0 = ['0']`. -/
def natDigits (n : Nat) : List Char := natDigitsCore (n + 1) n

/-- Python `str(n)` for a nonnegative integer. -/
def str_of_nat (n : Nat) : String := String.mk (natDigits n)

/-- Python `str(n)` for an integer (negative values get a sign; in the claims
under study the rendered value is always nonnegative). -/
def str_of_int (n : Int) : String :=
  if n < 0 then "-" ++ str_of_nat n.natAbs else str_of_nat n.toNat

/-- Python `s.zfill(width)`: left-pad with `'0'` up to `width`; a string at
least `width` long is returned unchanged. -/
def zfill (s : String) (width : Nat) : String :=
  String.mk (List.replicate (width - s.length) (Char.ofNat 48)) ++ s

/-- The `while f_full >= threshold` loop of `_compute_full_factor`
(lines 40-44) at the threshold `Decimal(10)` used by every call in the
program, tracking the exponent `r`.  For a nonnegative integer `M` the
Decimal comparison `M ** (1/r) >= 10` holds exactly when `10 ^ r <= M`, so
the loop body repeats while `¬ (M < 10 ^ r)`.  Fuel-based structural
recursion; `M + 1` units of fuel always suffice because the loop stops no
later than `r = (number of decimal digits of M) <= M + 1`. -/
def computeFullFactorGo : Nat → Nat → Nat → Nat
  | 0, _, r => r
  | fuel + 1, M, r => if M < 10 ^ r then r else computeFullFactorGo fuel M (r + 1)

/-- The exponent `r` returned by `_compute_full_factor(M, Decimal(10))`
(lines 38-45): the loop starts at `r = 1`, `f_full = M` and increments `r`
until `M ** (1/r) < 10`. -/
def _compute_full_factor (M : Nat) : Nat := computeFullFactorGo (M + 1) M 1

/-- The full-precision root factor `f_full = M ** (Decimal(1) / Decimal(r))`
(line 44), modelled as the exact real `r`-th root.  For `r = 1` the source
keeps `f_full = M`, which agrees with `M ^ (1/1)`. -/
noncomputable def f_full_real (M r : Nat) : ℝ := (M : ℝ) ^ ((1 : ℝ) / (r : ℝ))

/-- `N = build_numeric_code(message)` (line 55). -/
def enc_N (message : String) : Nat := build_numeric_code message

/-- `L = len(str(N))` (line 56). -/
def enc_L (message : String) : Nat := (str_of_nat (enc_N message)).length

/-- `M = Decimal(N) * (Decimal(10) ** L) + L` (line 57); exact for the
message sizes covered by the 200-digit working precision. -/
def enc_M (message : String) : Nat := enc_N message * 10 ^ enc_L message + enc_L message

/-- The exponent computed by `_compute_full_factor(M, threshold)` inside
`encode_secret` (line 58). -/
def enc_r (message : String) : Nat := _compute_full_factor (enc_M message)

/-- `f2 = Decimal(r * 100 + L)` (line 60); an integer value. -/
def enc_f2 (message : String) : Nat := enc_r message * 100 + enc_L message

/-- The full-precision factor returned by `encode_secret` (line 58/61). -/
noncomputable def enc_f_full (message : String) : ℝ :=
  f_full_real (enc_M message) (enc_r message)

/-- `encode_secret(message, threshold=Decimal(10))` (lines 48-61), returning
`(f1, f2, f_full)`.  `f1 = f_full.quantize(Decimal('0.0001'), ROUND_FLOOR)`
is floor-truncation to 4 decimal places. -/
noncomputable def encode_secret (message : String) : ℝ × Nat × ℝ :=
  ((⌊enc_f_full message * 10000⌋ : ℝ) / 10000, enc_f2 message, enc_f_full message)

/-- `reverse_tabelle.get(code, '?')` (line 75). -/
def decode_code (code : Nat) : Char := (List.lookup code reverse_tabelle).getD sentinel

/-- The decoding loop of `decode_secret` (lines 72-75): consume the digit
string two characters at a time (`code_str[i:i+2]`; the final slice of an
odd-length string has a single character) and map each group through
`reverse_tabelle` with sentinel fallback. -/
def decode_groups : List Char → List Char
  | [] => []
  | [c] => [decode_code (strToNat (String.mk [c]))]
  | c1 :: c2 :: rest => decode_code (strToNat (String.mk [c1, c2])) :: decode_groups rest

/-- The integer/string tail of `decode_secret` (lines 70-76) once
`M = int((f_full ** r).to_integral_value(ROUND_FLOOR))` is known:
`N = int(M // Decimal(10)**L)` (Decimal floor-division truncates toward
zero), `code_str = str(N).zfill(L)`, then the 2-digit decoding loop. -/
def decode_after_restore (M : Nat) (L : Nat) : String :=
  let N : Int := Int.tdiv (M : Int) ((10 : Int) ^ L)
  let code_str := zfill (str_of_int N) L
  String.mk (decode_groups code_str.toList)

/-- `decode_secret(f_full, f2)` (lines 64-76): `r = int(f2) // 100`,
`L = int(f2) % 100`, `M = (f_full ** r).to_integral_value(ROUND_FLOOR)`,
`N = int(M // Decimal(10)**L)`, `code_str = str(N).zfill(L)`, then decode
2-digit groups.  `f2` is an integer in every use, hence `Nat`. -/
noncomputable def decode_secret (f_full : ℝ) (f2 : Nat) : String :=
  let r := f2 / 100
  let L := f2 % 100
  let M : Int := ⌊f_full ^ r⌋
  let N : Int := Int.tdiv M ((10 : Int) ^ L)
  let code_str := zfill (str_of_int N) L
  String.mk (decode_groups code_str.toList)

/-- The effect of the encode-decode pipeline on a single character: a mapped
character survives, an unmapped character degrades to the sentinel. -/
def lossy_char (ch : Char) : Char :=
  if (List.lookup ch zeichen_tabelle).isSome then ch else sentinel

/-- The ten decimal digit characters. -/
def digitChars : List Char := (List.range 10).map (fun i => Char.ofNat (48 + i))

/-- The concatenated code string of a message, as a flat character list:
`''.join(zeichen_tabelle.get(ch, '00') for ch in message)` seen through
`String.toList`. -/
def codesFlat (l : List Char) : List Char := ((l.map codeOf).map String.toList).flatten

/- ------------------------------------------------------------------ -/
/- Helper lemmas                                                       -/
/- ------------------------------------------------------------------ -/

theorem lookup_some_mem {α β : Type} [BEq α] [LawfulBEq α] :
    ∀ (l : List (α × β)) (a : α) (b : β), List.lookup a l = some b → (a, b) ∈ l
  | [], _, _, h => by simp [List.lookup] at h
  | p :: t, a, b, h => by
    by_cases hab : a == p.1
    · simp only [List.lookup, hab] at h
      cases h
      have : a = p.1 := eq_of_beq hab
      subst this
      exact List.mem_cons_self _ _
    · simp only [List.lookup, hab] at h
      exact List.mem_cons_of_mem _ (lookup_some_mem t a b h)

theorem table_codes_digits :
    ∀ p ∈ zeichen_tabelle, p.2.toList.length = 2 ∧ ∀ c ∈ p.2.toList, c ∈ digitChars := by
  decide

theorem table_reverse :
    ∀ p ∈ zeichen_tabelle, List.lookup (strToNat p.2) reverse_tabelle = some p.1 := by
  decide

theorem reverse_vals_mapped :
    ∀ p ∈ reverse_tabelle, (List.lookup p.2 zeichen_tabelle).isSome := by
  decide

theorem lookup_zero_reverse : List.lookup 0 reverse_tabelle = none := by decide

theorem digit_ofNat_mem (k : Nat) (hk : k < 10) : Char.ofNat (48 + k) ∈ digitChars := by
  interval_cases k <;> decide

theorem digit_toNat (k : Nat) (hk : k < 10) : (Char.ofNat (48 + k)).toNat = 48 + k := by
  interval_cases k <;> decide

theorem digit_mem_bounds (c : Char) (hc : c ∈ digitChars) : 48 ≤ c.toNat ∧ c.toNat ≤ 57 := by
  fin_cases hc <;> decide

theorem digit_recon (c : Char) (hc : c ∈ digitChars) : Char.ofNat (48 + (c.toNat - 48)) = c := by
  fin_cases hc <;> decide

theorem listToNat_shift (l : List Char) : ∀ a : Nat,
    l.foldl (fun acc c => 10 * acc + (c.toNat - 48)) a = a * 10 ^ l.length + listToNat l := by
  induction l with
  | nil => intro a; simp [listToNat]
  | cons c t ih =>
    intro a
    simp only [listToNat, List.foldl_cons, List.length_cons]
    rw [ih (10 * a + (c.toNat - 48)), ih (10 * 0 + (c.toNat - 48))]
    ring

theorem listToNat_append_single (l : List Char) (c : Char) :
    listToNat (l ++ [c]) = 10 * listToNat l + (c.toNat - 48) := by
  simp only [listToNat, List.foldl_append, List.foldl_cons, List.foldl_nil]

theorem listToNat_head_lower (d : Char) (t : List Char) :
    (d.toNat - 48) * 10 ^ t.length ≤ listToNat (d :: t) := by
  have h := listToNat_shift t (10 * 0 + (d.toNat - 48))
  simp only [listToNat, List.foldl_cons]
  rw [h]
  have h10 : (10 * 0 + (d.toNat - 48)) = d.toNat - 48 := by omega
  rw [h10]
  exact Nat.le_add_right _ _

theorem natDigitsCore_congr : ∀ (f1 f2 n : Nat), n < f1 → n < f2 →
    natDigitsCore f1 n = natDigitsCore f2 n := by
  intro f1
  induction f1 with
  | zero => intro f2 n h1 h2; omega
  | succ g ih =>
    intro f2 n h1 h2
    cases f2 with
    | zero => omega
    | succ g2 =>
      simp only [natDigitsCore]
      by_cases h : n < 10
      · simp [h]
      · simp only [if_neg h]
        have hdiv : n / 10 < n := Nat.div_lt_self (by omega) (by omega)
        rw [ih g2 (n / 10) (by omega) (by omega)]

theorem natDigits_unfold (n : Nat) :
    natDigits n = if n < 10 then [Char.ofNat (48 + n)]
      else natDigits (n / 10) ++ [Char.ofNat (48 + n % 10)] := by
  have hcore : natDigitsCore (n + 1) n
      = if n < 10 then [Char.ofNat (48 + n)]
        else natDigitsCore n (n / 10) ++ [Char.ofNat (48 + n % 10)] := rfl
  show natDigitsCore (n + 1) n = _
  rw [hcore]
  by_cases h : n < 10
  · simp [h]
  · have hdiv : n / 10 < n := Nat.div_lt_self (by omega) (by omega)
    rw [if_neg h, if_neg h,
      natDigitsCore_congr n (n / 10 + 1) (n / 10) (by omega) (by omega)]
    rfl

theorem natDigits_ne_nil (n : Nat) : natDigits n ≠ [] := by
  rw [natDigits_unfold]
  by_cases h : n < 10 <;> simp [h]

theorem natDigits_mem_digit (n : Nat) : ∀ c ∈ natDigits n, c ∈ digitChars := by
  induction n using Nat.strong_induction_on with
  | _ n ih =>
    rw [natDigits_unfold]
    by_cases h : n < 10
    · simp only [if_pos h, List.mem_singleton]
      rintro c rfl
      exact digit_ofNat_mem n h
    · simp only [if_neg h, List.mem_append, List.mem_singleton]
      have hdiv : n / 10 < n := Nat.div_lt_self (by omega) (by omega)
      rintro c (hc | rfl)
      · exact ih (n / 10) hdiv c hc
      · exact digit_ofNat_mem (n % 10) (Nat.mod_lt n (by omega))

theorem natDigits_listToNat (n : Nat) : listToNat (natDigits n) = n := by
  induction n using Nat.strong_induction_on with
  | _ n ih =>
    rw [natDigits_unfold]
    by_cases h : n < 10
    · simp only [if_pos h, listToNat, List.foldl_cons, List.foldl_nil, digit_toNat n h]
      omega
    · have hdiv : n / 10 < n := Nat.div_lt_self (by omega) (by omega)
      simp only [if_neg h]
      rw [listToNat_append_single, ih (n / 10) hdiv,
        digit_toNat (n % 10) (Nat.mod_lt n (by omega))]
      omega

theorem natDigits_of_digits : ∀ l : List Char,
    (∀ c ∈ l, c ∈ digitChars) → l ≠ [] → l.headI ≠ Char.ofNat 48 →
    natDigits (listToNat l) = l := by
  intro l
  induction l using List.reverseRecOn with
  | nil => intro _ h _; exact absurd rfl h
  | append_singleton t c ih =>
    intro hdig _ hhead
    cases t with
    | nil =>
      have hc : c ∈ digitChars := hdig c (by simp)
      have hb := digit_mem_bounds c hc
      simp only [List.nil_append, listToNat, List.foldl_cons, List.foldl_nil]
      rw [natDigits_unfold, if_pos (by omega : 10 * 0 + (c.toNat - 48) < 10)]
      have h0 : 10 * 0 + (c.toNat - 48) = c.toNat - 48 := by omega
      rw [h0, digit_recon c hc]
    | cons d t2 =>
      have hcd : c ∈ digitChars := hdig c (by simp)
      have hdd : d ∈ digitChars := hdig d (by simp)
      have hbc := digit_mem_bounds c hcd
      have hbd := digit_mem_bounds d hdd
      have hd0 : d ≠ Char.ofNat 48 := by
        intro hcontra
        apply hhead
        simp [hcontra]
      have hdtoNat : d.toNat ≠ 48 := by
        intro h48
        have hrecon : Char.ofNat (48 + (d.toNat - 48)) = d := digit_recon d hdd
        rw [h48] at hrecon
        norm_num at hrecon
        exact hd0 hrecon.symm
      have hv : 1 ≤ listToNat (d :: t2) := by
        have hlow := listToNat_head_lower d t2
        have hpow : 0 < 10 ^ t2.length := pow_pos (by omega) _
        have : 1 * 1 ≤ (d.toNat - 48) * 10 ^ t2.length :=
          Nat.mul_le_mul (by omega) hpow
        omega
      rw [listToNat_append_single (d :: t2) c]
      have hk : c.toNat - 48 < 10 := by omega
      rw [natDigits_unfold,
        if_neg (by omega : ¬ (10 * listToNat (d :: t2) + (c.toNat - 48) < 10))]
      have h1 : (10 * listToNat (d :: t2) + (c.toNat - 48)) / 10 = listToNat (d :: t2) := by
        omega
      have h2 : (10 * listToNat (d :: t2) + (c.toNat - 48)) % 10 = c.toNat - 48 := by
        omega
      rw [h1, h2]
      rw [ih (fun x hx => hdig x (List.mem_append_left _ hx)) (by simp)
        (by simpa using hd0)]
      rw [digit_recon c hcd]

theorem computeFullFactorGo_ge : ∀ (fuel M r : Nat), r ≤ computeFullFactorGo fuel M r := by
  intro fuel
  induction fuel with
  | zero => intro M r; exact le_refl r
  | succ g ih =>
    intro M r
    simp only [computeFullFactorGo]
    by_cases h : M < 10 ^ r
    · simp [h]
    · simp only [if_neg h]
      exact le_trans (by omega) (ih M (r + 1))

theorem computeFullFactorGo_lt_pow : ∀ (fuel M r : Nat), M < 10 ^ (r + fuel) →
    M < 10 ^ computeFullFactorGo fuel M r := by
  intro fuel
  induction fuel with
  | zero => intro M r h; simpa [computeFullFactorGo] using h
  | succ g ih =>
    intro M r h
    simp only [computeFullFactorGo]
    by_cases hlt : M < 10 ^ r
    · simp [hlt]
    · simp only [if_neg hlt]
      apply ih M (r + 1)
      have : r + 1 + g = r + (g + 1) := by omega
      rw [this]
      exact h

theorem computeFullFactorGo_min : ∀ (fuel M r s : Nat), r ≤ s →
    s < computeFullFactorGo fuel M r → 10 ^ s ≤ M := by
  intro fuel
  induction fuel with
  | zero =>
    intro M r s hrs hs
    simp only [computeFullFactorGo] at hs
    omega
  | succ g ih =>
    intro M r s hrs hs
    simp only [computeFullFactorGo] at hs
    by_cases hlt : M < 10 ^ r
    · rw [if_pos hlt] at hs; omega
    · rw [if_neg hlt] at hs
      rcases Nat.eq_or_lt_of_le hrs with rfl | hlt2
      · omega
      · exact ih M (r + 1) s (by omega) hs

theorem compute_full_factor_pos (M : Nat) : 1 ≤ _compute_full_factor M :=
  computeFullFactorGo_ge (M + 1) M 1

theorem compute_full_factor_lt_pow (M : Nat) : M < 10 ^ _compute_full_factor M := by
  apply computeFullFactorGo_lt_pow
  calc M < 10 ^ M := Nat.lt_pow_self (by omega) M
    _ ≤ 10 ^ (1 + (M + 1)) := Nat.pow_le_pow_right (by omega) (by omega)

theorem compute_full_factor_min (M s : Nat) (h1 : 1 ≤ s)
    (h2 : s < _compute_full_factor M) : 10 ^ s ≤ M :=
  computeFullFactorGo_min (M + 1) M 1 s h1 h2

theorem f_full_real_pow (M r : Nat) (hr : 1 ≤ r) : (f_full_real M r) ^ r = (M : ℝ) := by
  rw [f_full_real, ← Real.rpow_natCast ((M : ℝ) ^ ((1 : ℝ) / (r : ℝ))) r,
    ← Real.rpow_mul (Nat.cast_nonneg M), one_div,
    inv_mul_cancel₀ (by exact_mod_cast (by omega : r ≠ 0) : (r : ℝ) ≠ 0),
    Real.rpow_one]

theorem f_full_real_floor (M r : Nat) (hr : 1 ≤ r) : ⌊(f_full_real M r) ^ r⌋ = (M : ℤ) := by
  rw [f_full_real_pow M r hr]
  exact Int.floor_natCast M

theorem f_full_real_lt_ten_iff (M r : Nat) (hr : 1 ≤ r) :
    f_full_real M r < 10 ↔ M < 10 ^ r := by
  have hx : 0 ≤ f_full_real M r := Real.rpow_nonneg (Nat.cast_nonneg M) _
  constructor
  · intro h
    have hp : (f_full_real M r) ^ r < 10 ^ r := by
      apply pow_lt_pow_left₀ h hx
      omega
    rw [f_full_real_pow M r hr] at hp
    have : (M : ℝ) < ((10 ^ r : ℕ) : ℝ) := by push_cast; exact hp
    exact_mod_cast this
  · intro h
    by_contra hcon
    push_neg at hcon
    have hle : (10 : ℝ) ^ r ≤ (f_full_real M r) ^ r := pow_le_pow_left₀ (by norm_num) hcon r
    rw [f_full_real_pow M r hr] at hle
    have : (M : ℝ) < (10 : ℝ) ^ r := by
      have := (Nat.cast_lt (α := ℝ)).mpr h
      push_cast at this
      exact this
    linarith

theorem decode_secret_restore (M r f2 : Nat) (hr : 1 ≤ r) (hdiv : f2 / 100 = r) :
    decode_secret (f_full_real M r) f2 = decode_after_restore M (f2 % 100) := by
  simp only [decode_secret, decode_after_restore, hdiv]
  rw [f_full_real_floor M r hr]

theorem decode_encode_eval (m : String) (h1 : 1 ≤ enc_r m)
    (h2 : enc_f2 m / 100 = enc_r m) :
    decode_secret (encode_secret m).2.2 (encode_secret m).2.1
      = decode_after_restore (enc_M m) (enc_f2 m % 100) := by
  have hfull : (encode_secret m).2.2 = f_full_real (enc_M m) (enc_r m) := rfl
  have hf2 : (encode_secret m).2.1 = enc_f2 m := rfl
  rw [hfull, hf2]
  exact decode_secret_restore (enc_M m) (enc_r m) (enc_f2 m) h1 h2

theorem string_toList_append (s t : String) : (s ++ t).toList = s.toList ++ t.toList := by
  cases s; cases t; rfl

theorem string_join_toList : ∀ (L : List String) (acc : String),
    (L.foldl (fun r s => r ++ s) acc).toList = acc.toList ++ (L.map String.toList).flatten := by
  intro L
  induction L with
  | nil => intro acc; simp
  | cons s t ih =>
    intro acc
    simp only [List.foldl_cons, List.map_cons, List.flatten_cons]
    rw [ih (acc ++ s), string_toList_append]
    simp [List.append_assoc]

theorem build_code_toList (l : List Char) :
    (String.join (l.map codeOf)).toList = codesFlat l := by
  show ((l.map codeOf).foldl (fun r s => r ++ s) "").toList = codesFlat l
  rw [string_join_toList]
  simp [codesFlat]

theorem codeOf_spec (ch : Char) :
    (codeOf ch).toList.length = 2 ∧ ∀ c ∈ (codeOf ch).toList, c ∈ digitChars := by
  rw [codeOf]
  cases h : List.lookup ch zeichen_tabelle with
  | none => simp only [h, Option.getD_none]; decide
  | some v =>
    simp only [h, Option.getD_some]
    exact table_codes_digits (ch, v) (lookup_some_mem zeichen_tabelle ch v h)

theorem codesFlat_cons (c : Char) (t : List Char) :
    codesFlat (c :: t) = (codeOf c).toList ++ codesFlat t := by
  simp [codesFlat]

theorem codesFlat_length (l : List Char) : (codesFlat l).length = 2 * l.length := by
  induction l with
  | nil => rfl
  | cons c t ih =>
    rw [codesFlat_cons, List.length_append, ih, (codeOf_spec c).1, List.length_cons]
    ring

theorem codesFlat_digits (l : List Char) : ∀ c ∈ codesFlat l, c ∈ digitChars := by
  induction l with
  | nil => simp [codesFlat]
  | cons c t ih =>
    rw [codesFlat_cons]
    intro x hx
    rcases List.mem_append.mp hx with h | h
    · exact (codeOf_spec c).2 x h
    · exact ih x h

theorem decode_groups_codesFlat (l : List Char) :
    decode_groups (codesFlat l) = l.map (fun ch => decode_code (strToNat (codeOf ch))) := by
  induction l with
  | nil => rfl
  | cons c t ih =>
    rw [codesFlat_cons]
    obtain ⟨a, b, hab⟩ := List.length_eq_two.mp (codeOf_spec c).1
    rw [hab]
    simp only [List.cons_append, List.nil_append, List.map_cons]
    rw [decode_groups, ih]
    have hsn : strToNat (String.mk [a, b]) = strToNat (codeOf c) := by
      show listToNat [a, b] = listToNat (codeOf c).toList
      rw [hab]
    rw [hsn]

theorem decode_code_codeOf (ch : Char) :
    decode_code (strToNat (codeOf ch)) = lossy_char ch := by
  rw [codeOf, lossy_char]
  cases h : List.lookup ch zeichen_tabelle with
  | none =>
    simp only [h, Option.getD_none, Option.isSome_none, Bool.false_eq_true, if_false]
    decide
  | some v =>
    simp only [h, Option.getD_some, Option.isSome_some, if_true]
    have hm := lookup_some_mem zeichen_tabelle ch v h
    rw [decode_code, table_reverse (ch, v) hm]
    rfl

theorem decode_encode_master (c : Char) (cs : List Char)
    (hfirst : 10 ≤ strToNat (codeOf c))
    (hlen : (c :: cs).length ≤ 49) :
    decode_secret (encode_secret (String.mk (c :: cs))).2.2
        (encode_secret (String.mk (c :: cs))).2.1
      = String.mk ((c :: cs).map lossy_char) := by
  set m : String := String.mk (c :: cs) with hm
  have hmlist : m.toList = c :: cs := rfl
  -- the concatenated code string and its structure
  obtain ⟨a, b, hab⟩ := List.length_eq_two.mp (codeOf_spec c).1
  have hflat_cons : codesFlat (c :: cs) = a :: (b :: codesFlat cs) := by
    rw [codesFlat_cons, hab]; rfl
  have hflat_ne : codesFlat (c :: cs) ≠ [] := by rw [hflat_cons]; simp
  have hflat_dig : ∀ x ∈ codesFlat (c :: cs), x ∈ digitChars := codesFlat_digits _
  -- the first digit of the first code is not '0'
  have hamem : a ∈ digitChars := hflat_dig a (by rw [hflat_cons]; simp)
  have hbmem : b ∈ digitChars := hflat_dig b (by rw [hflat_cons]; simp)
  have hba := digit_mem_bounds a hamem
  have hbb := digit_mem_bounds b hbmem
  have hfirstval : 10 ≤ 10 * (10 * 0 + (a.toNat - 48)) + (b.toNat - 48) := by
    have : strToNat (codeOf c) = 10 * (10 * 0 + (a.toNat - 48)) + (b.toNat - 48) := by
      show listToNat (codeOf c).toList = _
      rw [hab, listToNat, List.foldl_cons, List.foldl_cons, List.foldl_nil]
    rw [this] at hfirst
    exact hfirst
  have ha0 : a ≠ Char.ofNat 48 := by
    intro hcontra
    have : a.toNat = 48 := by rw [hcontra]; decide
    omega
  -- N = listToNat (codesFlat (c :: cs))
  have hjoin : (String.join (m.toList.map codeOf)).toList = codesFlat (c :: cs) := by
    rw [hmlist]; exact build_code_toList (c :: cs)
  have hjoin_ne : String.join (m.toList.map codeOf) ≠ "" := by
    intro hcontra
    rw [hcontra] at hjoin
    exact hflat_ne hjoin.symm
  have hN : enc_N m = listToNat (codesFlat (c :: cs)) := by
    show build_numeric_code m = _
    rw [build_numeric_code]
    simp only [if_neg hjoin_ne]
    show listToNat (String.join (m.toList.map codeOf)).toList = _
    rw [hjoin]
  -- str(N) restores the code string exactly (no leading zero was lost)
  have hstr : natDigits (enc_N m) = codesFlat (c :: cs) := by
    rw [hN]
    apply natDigits_of_digits _ hflat_dig hflat_ne
    rw [hflat_cons]
    simpa using ha0
  have hL : enc_L m = 2 * (cs.length + 1) := by
    show (str_of_nat (enc_N m)).length = _
    rw [str_of_nat]
    show (natDigits (enc_N m)).length = _
    rw [hstr, codesFlat_length]
    simp
  have hL100 : enc_L m < 100 := by
    have : (c :: cs).length = cs.length + 1 := rfl
    rw [this] at hlen
    omega
  -- decode
  have hr1 : 1 ≤ enc_r m := compute_full_factor_pos _
  have hdiv : enc_f2 m / 100 = enc_r m := by
    show (enc_r m * 100 + enc_L m) / 100 = enc_r m
    omega
  have hmod : enc_f2 m % 100 = enc_L m := by
    show (enc_r m * 100 + enc_L m) % 100 = enc_L m
    omega
  rw [decode_encode_eval m hr1 hdiv, hmod]
  -- the integer tail of decode reconstructs N and the code string
  have hMval : enc_M m = enc_N m * 10 ^ enc_L m + enc_L m := rfl
  have hNdiv : enc_M m / 10 ^ enc_L m = enc_N m := by
    rw [hMval, Nat.mul_comm (enc_N m), Nat.mul_add_div (pow_pos (by omega) _),
      Nat.div_eq_of_lt (Nat.lt_pow_self (by omega) _)]
    omega
  have htdiv : Int.tdiv ((enc_M m : Nat) : Int) ((10 : Int) ^ enc_L m)
      = ((enc_N m : Nat) : Int) := by
    have hcast : ((10 : Int) ^ enc_L m) = (((10 ^ enc_L m : Nat)) : Int) := by push_cast; rfl
    rw [hcast]
    show (((enc_M m / 10 ^ enc_L m : Nat)) : Int) = _
    rw [hNdiv]
  rw [decode_after_restore]
  simp only [htdiv]
  have hstr_int : str_of_int ((enc_N m : Nat) : Int) = str_of_nat (enc_N m) := by
    rw [str_of_int, if_neg (by omega : ¬ (((enc_N m : Nat) : Int) < 0))]
    congr 1
  rw [hstr_int]
  have hzfill : (zfill (str_of_nat (enc_N m)) (enc_L m)).toList = codesFlat (c :: cs) := by
    rw [zfill]
    have hlen_eq : (str_of_nat (enc_N m)).length = enc_L m := by
      show enc_L m = enc_L m
      rfl
    rw [hlen_eq, Nat.sub_self, List.replicate_zero, string_toList_append]
    show [] ++ (natDigits (enc_N m)) = _
    rw [List.nil_append, hstr]
  rw [hzfill, decode_groups_codesFlat]
  congr 1
  apply List.map_congr_left
  intro x _
  exact decode_code_codeOf x

theorem decode_code_sentinel_or_mapped (code : Nat) :
    decode_code code = sentinel ∨ (List.lookup (decode_code code) zeichen_tabelle).isSome := by
  cases h : List.lookup code reverse_tabelle with
  | none => left; rw [decode_code, h]; rfl
  | some ch =>
    right
    rw [decode_code, h]
    exact reverse_vals_mapped (code, ch) (lookup_some_mem _ _ _ h)

theorem decode_groups_chars : ∀ (l : List Char), ∀ c ∈ decode_groups l,
    c = sentinel ∨ (List.lookup c zeichen_tabelle).isSome
  | [] => by simp [decode_groups]
  | [c0] => by
    simp only [decode_groups, List.mem_singleton]
    rintro c rfl
    exact decode_code_sentinel_or_mapped _
  | c1 :: c2 :: rest => by
    simp only [decode_groups, List.mem_cons]
    rintro c (rfl | hc)
    · exact decode_code_sentinel_or_mapped _
    · exact decode_groups_chars rest c hc

/- ------------------------------------------------------------------ -/
/- Claims                                                              -/
/- ------------------------------------------------------------------ -/

/-- C1 (counterexample): the claimed full-precision round-trip fails on the
message "aa".  Its code string is "0101", but `int` parsing drops the
leading zero, `L = len(str(101)) = 3`, and decoding regroups the padded
string "101" as "10","1", yielding "ja". -/
theorem c1_roundtrip_counterexample :
    ¬ (decode_secret (encode_secret "aa").2.2 (encode_secret "aa").2.1 = "aa") := by
  rw [decode_encode_eval "aa" (by decide) (by decide)]
  decide

/-- C1 (amended): for every nonempty message of at most 49 characters, all of
whose characters are in the table and whose first character's code does not
start with a zero digit (code value at least 10, i.e. the first character is
not one of a-i), decoding `(f_full, f2)` reproduces the message exactly. -/
theorem c1_roundtrip (c : Char) (cs : List Char)
    (hfirst : 10 ≤ strToNat (codeOf c))
    (hlen : (c :: cs).length ≤ 49)
    (hall : ∀ x ∈ c :: cs, (List.lookup x zeichen_tabelle).isSome) :
    decode_secret (encode_secret (String.mk (c :: cs))).2.2
        (encode_secret (String.mk (c :: cs))).2.1 = String.mk (c :: cs) := by
  rw [decode_encode_master c cs hfirst hlen]
  congr 1
  have hmap : (c :: cs).map lossy_char = (c :: cs).map id := by
    apply List.map_congr_left
    intro x hx
    rw [lossy_char, if_pos (hall x hx)]
    rfl
  rw [hmap, List.map_id]

/-- C1 (witness): the round-trip theorem applied to the message "no". -/
theorem c1_roundtrip_witness :
    decode_secret (encode_secret (String.mk ['n', 'o'])).2.2
        (encode_secret (String.mk ['n', 'o'])).2.1 = String.mk ['n', 'o'] :=
  c1_roundtrip 'n' ['o'] (by decide) (by decide) (by decide)

/-- C2 (counterexample): decoding the encoding of "hi" does not reproduce
"hi". -/
theorem c2_hi_counterexample :
    ¬ (decode_secret (encode_secret "hi").2.2 (encode_secret "hi").2.1 = "hi") := by
  rw [decode_encode_eval "hi" (by decide) (by decide)]
  decide

/-- C2 (amended): encoding "hi" maps h to "08" and i to "09", giving the code
string "0809", N = 809, L = 3 (digit length of str(809): the leading zero is
lost), M = 809003 and f2 = 6*100 + 3 = 603; decoding `(f_full, f2)` yields
"/i", not "hi", because "809" regroups as "80","9". -/
theorem c2_hi_amended :
    codeOf 'h' = "08" ∧ codeOf 'i' = "09" ∧
    enc_N "hi" = 809 ∧ enc_L "hi" = 3 ∧ enc_M "hi" = 809003 ∧
    enc_r "hi" = 6 ∧ (encode_secret "hi").2.1 = 603 ∧
    decode_secret (encode_secret "hi").2.2 (encode_secret "hi").2.1 = "/i" := by
  refine ⟨by decide, by decide, by decide, by decide, by decide, by decide, by decide, ?_⟩
  rw [decode_encode_eval "hi" (by decide) (by decide)]
  decide

/-- C3 (counterexample): the empty message does not round-trip to the empty
string. -/
theorem c3_empty_counterexample :
    ¬ (decode_secret (encode_secret "").2.2 (encode_secret "").2.1 = "") := by
  rw [decode_encode_eval "" (by decide) (by decide)]
  decide

/-- C3 (amended): the empty message packs to N = 0, but `str(0) = "0"` makes
L = 1, M = 1, f2 = 101, and decoding yields the sentinel string "?" (the
single digit group "0" has no reverse mapping), not "". -/
theorem c3_empty_amended :
    enc_N "" = 0 ∧
    decode_secret (encode_secret "").2.2 (encode_secret "").2.1 = "?" := by
  refine ⟨by decide, ?_⟩
  rw [decode_encode_eval "" (by decide) (by decide)]
  decide

/-- C4: for every nonnegative integer M (threshold 10), the exponent r
returned by the root reducer satisfies r >= 1 and `M ** (1/r) < 10`, r is
the smallest such exponent, and either r = 1 or the previous iterate
`M ** (1/(r-1))` was still >= 10. -/
theorem c4_threshold_minimality (M : Nat) :
    1 ≤ _compute_full_factor M ∧
    f_full_real M (_compute_full_factor M) < 10 ∧
    (_compute_full_factor M = 1 ∨ 10 ≤ f_full_real M (_compute_full_factor M - 1)) ∧
    ∀ s, 1 ≤ s → s < _compute_full_factor M → ¬ (f_full_real M s < 10) := by
  have h1 := compute_full_factor_pos M
  refine ⟨h1, ?_, ?_, ?_⟩
  · exact (f_full_real_lt_ten_iff M _ h1).mpr (compute_full_factor_lt_pow M)
  · rcases Nat.eq_or_lt_of_le h1 with heq | hlt
    · exact Or.inl heq.symm
    · right
      have hs : 1 ≤ _compute_full_factor M - 1 := by omega
      have hmin := compute_full_factor_min M (_compute_full_factor M - 1) hs (by omega)
      by_contra hcon
      push_neg at hcon
      have := (f_full_real_lt_ten_iff M _ hs).mp hcon
      omega
  · intro s hs1 hs2 hcon
    have := (f_full_real_lt_ten_iff M s hs1).mp hcon
    have hmin := compute_full_factor_min M s hs1 hs2
    omega

/-- C4 (witness): the threshold/minimality theorem at M = 809003 (where the
returned exponent is 6). -/
theorem c4_threshold_minimality_witness :
    1 ≤ _compute_full_factor 809003 ∧
    f_full_real 809003 (_compute_full_factor 809003) < 10 ∧
    (_compute_full_factor 809003 = 1 ∨
      10 ≤ f_full_real 809003 (_compute_full_factor 809003 - 1)) ∧
    ∀ s, 1 ≤ s → s < _compute_full_factor 809003 → ¬ (f_full_real 809003 s < 10) :=
  c4_threshold_minimality 809003

/-- C5: for every nonnegative integer M and every real threshold t > 1 there
is an exponent r >= 1 with `M ** (1/r) < t`, so the while-loop of
`_compute_full_factor` always terminates. -/
theorem c5_termination (M : Nat) (t : ℝ) (ht : 1 < t) :
    ∃ r : Nat, 1 ≤ r ∧ f_full_real M r < t := by
  obtain ⟨n, hn⟩ := pow_unbounded_of_one_lt (M : ℝ) ht
  refine ⟨n + 1, by omega, ?_⟩
  have ht0 : (0 : ℝ) ≤ t := by linarith
  have hcast : (((n + 1 : Nat)) : ℝ) ≠ 0 := Nat.cast_ne_zero.mpr (by omega)
  have hpos : (0 : ℝ) < 1 / (((n + 1 : Nat)) : ℝ) := by
    apply div_pos one_pos
    exact_mod_cast Nat.succ_pos n
  have hlt : (M : ℝ) < t ^ (n + 1) :=
    lt_of_lt_of_le hn (pow_le_pow_right₀ (by linarith) (by omega))
  have hstep : (M : ℝ) ^ ((1 : ℝ) / (((n + 1 : Nat)) : ℝ))
      < (t ^ (n + 1)) ^ ((1 : ℝ) / (((n + 1 : Nat)) : ℝ)) :=
    Real.rpow_lt_rpow (Nat.cast_nonneg M) hlt hpos
  rw [f_full_real]
  refine lt_of_lt_of_le hstep (le_of_eq ?_)
  rw [← Real.rpow_natCast t (n + 1), ← Real.rpow_mul ht0, mul_one_div,
    div_self hcast, Real.rpow_one]

/-- C5 (witness): termination at M = 809003 and threshold 10. -/
theorem c5_termination_witness : ∃ r : Nat, 1 ≤ r ∧ f_full_real 809003 r < 10 :=
  c5_termination 809003 10 (by norm_num)

/-- C6: whenever the packed digit length L is below 100, the returned
f2 equals r*100 + L with r >= 1 and L < 100, and the decode-side
decomposition `f2 // 100` and `f2 % 100` recovers r and L exactly. -/
theorem c6_f2_decomposition (m : String) (h : enc_L m < 100) :
    (encode_secret m).2.1 = enc_r m * 100 + enc_L m ∧
    1 ≤ enc_r m ∧ enc_L m < 100 ∧
    (encode_secret m).2.1 / 100 = enc_r m ∧
    (encode_secret m).2.1 % 100 = enc_L m := by
  have hr : 1 ≤ enc_r m := compute_full_factor_pos (enc_M m)
  refine ⟨rfl, hr, h, ?_, ?_⟩
  · show (enc_r m * 100 + enc_L m) / 100 = enc_r m
    omega
  · show (enc_r m * 100 + enc_L m) % 100 = enc_L m
    omega

/-- C6 (witness): the f2 decomposition at the message "hi" (L = 3). -/
theorem c6_f2_decomposition_witness :
    (encode_secret "hi").2.1 = enc_r "hi" * 100 + enc_L "hi" ∧
    1 ≤ enc_r "hi" ∧ enc_L "hi" < 100 ∧
    (encode_secret "hi").2.1 / 100 = enc_r "hi" ∧
    (encode_secret "hi").2.1 % 100 = enc_L "hi" :=
  c6_f2_decomposition "hi" (by decide)

/-- C7 (counterexample): for the message consisting of the unmapped character
`chr(1)` followed by 'j', the decoded string is "j": the sentinel does not
appear at the unknown character's position (it vanishes, because the code
"00" of the unknown first character is lost as leading zeros of N). -/
theorem c7_sentinel_counterexample :
    List.lookup (Char.ofNat 1) zeichen_tabelle = none ∧
    (decode_secret (encode_secret (String.mk [Char.ofNat 1, 'j'])).2.2
        (encode_secret (String.mk [Char.ofNat 1, 'j'])).2.1).toList.head?
      ≠ some sentinel := by
  refine ⟨by decide, ?_⟩
  rw [decode_encode_eval (String.mk [Char.ofNat 1, 'j']) (by decide) (by decide)]
  decide

/-- C7 (amended): for every message of at most 49 characters that contains an
unmapped character and whose first character is mapped with a code of value
at least 10, encoding followed by decoding yields exactly the original
characters with the sentinel at each unmapped position. -/
theorem c7_unknown_degradation (c : Char) (cs : List Char)
    (hfirst : 10 ≤ strToNat (codeOf c))
    (hlen : (c :: cs).length ≤ 49)
    (_hunmapped : ∃ x ∈ c :: cs, List.lookup x zeichen_tabelle = none) :
    decode_secret (encode_secret (String.mk (c :: cs))).2.2
        (encode_secret (String.mk (c :: cs))).2.1
      = String.mk ((c :: cs).map lossy_char) :=
  decode_encode_master c cs hfirst hlen

/-- C7 (witness): the degradation theorem on "n" followed by the unmapped
character `chr(1)`, which decodes to "n?". -/
theorem c7_unknown_degradation_witness :
    decode_secret (encode_secret (String.mk ['n', Char.ofNat 1])).2.2
        (encode_secret (String.mk ['n', Char.ofNat 1])).2.1
      = String.mk (['n', Char.ofNat 1].map lossy_char) :=
  c7_unknown_degradation 'n' [Char.ofNat 1] (by decide) (by decide) (by decide)

/-- C8: every code in the character table is exactly 2 decimal digits,
distinct characters map to distinct codes (and the keys are pairwise
distinct), and for every mapped character the reverse table maps the integer
value of its code back to the character. -/
theorem c8_table_bijection :
    (∀ p ∈ zeichen_tabelle, p.2.length = 2 ∧ ∀ ch ∈ p.2.toList, ch.isDigit) ∧
    (zeichen_tabelle.map Prod.fst).Nodup ∧
    (zeichen_tabelle.map Prod.snd).Nodup ∧
    ∀ p ∈ zeichen_tabelle, List.lookup (strToNat p.2) reverse_tabelle = some p.1 := by
  decide

/-- C8 (witness): the table invariants instantiated at the entry for 'a'. -/
theorem c8_table_bijection_witness :
    (('a', "01") : Char × String).2.length = 2 ∧
    ∀ ch ∈ (('a', "01") : Char × String).2.toList, ch.isDigit :=
  c8_table_bijection.1 ('a', "01") (by decide)

/-- C10: the decoding loop is total with sentinel fallback: every character
produced by `decode_groups` (on any digit string, in particular on the one
reconstructed from any encode) is either the sentinel or a mapped character,
and any 2-digit group without a reverse mapping decodes to the sentinel
rather than failing. -/
theorem c10_decode_total :
    (∀ l : List Char, ∀ c ∈ decode_groups l,
        c = sentinel ∨ (List.lookup c zeichen_tabelle).isSome) ∧
    (∀ code : Nat, List.lookup code reverse_tabelle = none →
        decode_code code = sentinel) := by
  constructor
  · exact decode_groups_chars
  · intro code h
    rw [decode_code, h]
    rfl

/-- C10 (witness): the totality theorem applied to the digit string "809"
(whose decode is "/i") at the output character '/', and to the unmapped group
value 0. -/
theorem c10_decode_total_witness :
    (Char.ofNat 47 = sentinel ∨ (List.lookup (Char.ofNat 47) zeichen_tabelle).isSome) ∧
    decode_code 0 = sentinel :=
  ⟨c10_decode_total.1 ['8', '0', '9'] (Char.ofNat 47) (by decide),
   c10_decode_total.2 0 (by decide)⟩
